import Mathlib

/-!
Verification of the training/evaluation core of `learn/training.py`
(clinical-notes ICD9 code prediction).

Shallow embedding conventions:
* a Python float that may be NaN is `PyFloat := Option ℚ` (`none` = NaN,
  `some q` = an ordinary value; the metric values the code compares are
  ordinary reals apart from NaN, so exact rationals model them);
* `np.nanargmax` / `np.nanargmin` return the index of the first occurrence
  of the extremum among non-NaN entries, and raise `ValueError` on an
  all-NaN array: modelled as `Option ℕ`, `none` being the error;
* the metrics-history dictionaries are `defaultdict(lambda: [])`, modelled
  as total functions `String → List PyFloat` with default `[]`;
* the training loop of `train_epochs` is modelled as a trace of events
  (mkdir of the model directory, one training pass and one dev evaluation
  per epoch, one final test evaluation); the neural network, optimizer,
  file I/O and tensorboard logging are opaque effects that produce no
  constraints on the control flow, so they are not part of the state.
-/

/-- A Python float that may be NaN: `none` is NaN. -/
abbrev PyFloat := Option ℚ

/-- Maximum of the non-NaN entries of a list (`none` when there is none).
Models the value `np.nanmax` would compute, used to specify `nanargmax`. -/
def nanmax : List PyFloat → Option ℚ
  | [] => none
  | none :: xs => nanmax xs
  | some q :: xs =>
    match nanmax xs with
    | none => some q
    | some m => some (max q m)

/-- Minimum of the non-NaN entries of a list (`none` when there is none). -/
def nanmin : List PyFloat → Option ℚ
  | [] => none
  | none :: xs => nanmin xs
  | some q :: xs =>
    match nanmin xs with
    | none => some q
    | some m => some (min q m)

/-- `np.nanargmax`: index of the first occurrence of the largest non-NaN
value; `none` models the `ValueError` raised on an all-NaN array. -/
def nanargmax : List PyFloat → Option ℕ
  | [] => none
  | none :: xs => (nanargmax xs).map (· + 1)
  | some q :: xs =>
    match nanmax xs with
    | none => some 0
    | some m => if m ≤ q then some 0 else (nanargmax xs).map (· + 1)

/-- `np.nanargmin`: index of the first occurrence of the smallest non-NaN
value; `none` models the `ValueError` raised on an all-NaN array. -/
def nanargmin : List PyFloat → Option ℕ
  | [] => none
  | none :: xs => (nanargmin xs).map (· + 1)
  | some q :: xs =>
    match nanmin xs with
    | none => some 0
    | some m => if q ≤ m then some 0 else (nanargmin xs).map (· + 1)

/-- `early_stop(metrics_hist, criterion, patience)` from
`learn/training.py` lines 151-159.  The history dictionary is the
`defaultdict(lambda: [])` built by `train_epochs`; `patience` is a Python
int, hence `ℤ`.  The source guards the `nanarg` calls with
`if not np.all(np.isnan(...))` and returns `False` otherwise; the guard is
written here with the branches swapped, which is the same test.  `none` in
the result would mean an uncaught numpy `ValueError`. -/
def early_stop (metrics_hist : String → List PyFloat) (criterion : String)
    (patience : ℤ) : Option Bool :=
  let h := metrics_hist criterion
  if h.all (fun x => x.isNone) then
    some false
  else if criterion = "loss-dev" then
    (nanargmin h).map (fun i => decide ((i : ℤ) > (h.length : ℤ) - patience))
  else
    (nanargmax h).map (fun i => decide ((i : ℤ) < (h.length : ℤ) - patience))

/-- `i` is the index of the largest non-NaN value of `h`, first occurrence
in case of ties (the index `np.nanargmax` denotes). -/
def isFirstMaxIdx (h : List PyFloat) (i : ℕ) : Prop :=
  ∃ q : ℚ, i < h.length ∧ h.getD i none = some q ∧
    (∀ j, j < h.length → ∀ r : ℚ, h.getD j none = some r → r ≤ q) ∧
    (∀ j, j < i → ∀ r : ℚ, h.getD j none = some r → r < q)

/-! ## The `train_epochs` loop (lines 72-149)

The loop is modelled as a trace of the events the claims speak about:
creation of the model directory, one full training pass and one dev-set
evaluation per epoch, and the final test-set evaluation.  The dev metrics
produced at epoch `e` by `test` are an oracle `dev e` (a dict, i.e. a list
of key/value pairs with the keys unique in any actual run); the model,
optimizer, tensorboard and `persistence.save_everything` are opaque
effects with no bearing on control flow. -/

/-- Observable control-flow events of `train_epochs`. -/
inductive Event where
  | mkModelDir : Event
  | trainEpoch : ℕ → Event
  | devEval : ℕ → Event
  | testEval : Event
deriving DecidableEq, Repr

/-- `for name, val in metrics_dev.items(): metrics_hist_dev[name].append(val)`
(lines 117-119): fold the per-epoch metrics dict into the history. -/
def histAppend (hist : String → List PyFloat) (m : List (String × PyFloat)) :
    String → List PyFloat :=
  m.foldl (fun h p => fun s => if s = p.1 then h s ++ [p.2] else h s) hist

/-- The dev-metrics history after the first `n` epochs, starting from the
empty `defaultdict(lambda: [])`. -/
def histAfter (dev : ℕ → List (String × PyFloat)) : ℕ → String → List PyFloat
  | 0 => fun _ => []
  | n + 1 => histAppend (histAfter dev n) (dev n)

/-- Lines 126-130: the early-stop break test, performed only when
`args.criterion is not None`.  `early_stop` never returns `none`
(`early_stop_isSome` below), so reading the value with `getD` is faithful. -/
def earlyStopCheck (crit : Option String) (hist : String → List PyFloat)
    (pat : ℤ) : Bool :=
  match crit with
  | none => false
  | some c => (early_stop hist c pat).getD false

/-- The `for epoch in range(...)` loop of lines 99-130: the remaining fuel,
the next epoch index, the current value of the Python variable `epoch`, the
dev-metrics history, and the event trace so far.  Returns the final value of
`epoch`, the final history and the trace. -/
def epochLoop (crit : Option String) (pat : ℤ)
    (dev : ℕ → List (String × PyFloat)) :
    ℕ → ℕ → ℕ → (String → List PyFloat) → List Event →
      ℕ × (String → List PyFloat) × List Event
  | 0, _e, epochVar, hist, tr => (epochVar, hist, tr)
  | rem + 1, e, _epochVar, hist, tr =>
    let hist' := histAppend hist (dev e)
    let tr' := tr ++ [Event.trainEpoch e, Event.devEval e]
    if earlyStopCheck crit hist' pat then (e, hist', tr')
    else epochLoop crit pat dev rem (e + 1) e hist' tr'

/-- `train_epochs(args, ...)` control flow (lines 72-149): when
`args.test_model is not None` the loop range is empty and no model
directory is created; `epoch` starts at 0 and `epoch + 1` is returned
together with the trace, which always ends with the single test-set
evaluation of lines 132-135. -/
def train_epochs (test_model : Option String) (n_epochs : ℕ)
    (crit : Option String) (pat : ℤ) (dev : ℕ → List (String × PyFloat)) :
    ℕ × List Event :=
  let test_only := test_model.isSome
  let setup : List Event := if test_only then [] else [Event.mkModelDir]
  let n := if test_only then 0 else n_epochs
  let r := epochLoop crit pat dev n 0 0 (fun _ => []) setup
  (r.1 + 1, r.2.2 ++ [Event.testEval])

/-- Python truthiness of an optional string: `None` and `""` are falsy. -/
def pyTruthy : Option String → Bool
  | none => false
  | some s => decide (s ≠ "")

/-- Lines 62-65 of `init`: an optimizer is built iff
`not args.test_model and not args.model == 'dummy'`. -/
def buildsOptimizer (test_model : Option String) (model : String) : Bool :=
  !pyTruthy test_model && decide (model ≠ "dummy")

/-- The per-epoch part of the trace: `k` consecutive epochs starting at
`e0`, each a full training pass followed by a dev evaluation. -/
def epochsTraceFrom : ℕ → ℕ → List Event
  | _, 0 => []
  | e0, k + 1 =>
    Event.trainEpoch e0 :: Event.devEval e0 :: epochsTraceFrom (e0 + 1) k

/-! ## Coarse-label aggregation in `test` (lines 258-270, non-hierarchical
branch)

ICD9 codes are strings, embedded as `List Char`; `np.round` is round half
to even; `output_coarse` starts as `np.zeros` and selected coarse indices
are set to 1. -/

/-- `np.round` for a scalar: round half to even (banker's rounding).
`q` rounds to its floor `f` when `q < f + 1/2`, to `f + 1` when
`q > f + 1/2`, and to the even neighbour on a tie; `f + 1/2` is written
`mkRat (2 * f + 1) 2`. -/
def npRound (q : ℚ) : ℤ :=
  let f := q.floor
  let half := mkRat (2 * f + 1) 2
  if q < half then f
  else if half < q then f + 1
  else if f % 2 = 0 then f else f + 1

/-- Indices of the nonzero entries of a 1-D integer array (the array
`np.nonzero(a)[0]`). -/
def nonzeroIdx (l : List ℤ) : List ℕ :=
  (List.range l.length).filter fun i => decide (l.getD i 0 ≠ 0)

/-- `np.nonzero` on a 1-D array returns a 1-tuple of index arrays;
the tuple is a list of index lists. -/
def npNonzero1d (l : List ℤ) : List (List ℕ) :=
  [nonzeroIdx l]

/-- `str(code).split('.')[0]`: the text before the first `'.'` (the whole
string when there is no dot). -/
def prefixBeforeDot (code : List Char) : List Char :=
  code.takeWhile fun c => decide (c ≠ '.')

/-- Lines 263-270 for one prediction row `y_hat_raw_`: starting from a zero
row of width `nCoarse`, skip the row if `len(np.nonzero(np.round(...)))`
is zero (it never is: the length of the 1-tuple is 1), otherwise map each
fine code with nonzero rounded score to its coarse prefix, deduplicate
(`set(...)`), translate through `c2ind_coarse` and set those positions
to 1. -/
def coarseRow (ind2c : ℕ → List Char) (c2ind_coarse : List Char → ℕ)
    (nCoarse : ℕ) (row : List ℚ) : List ℚ :=
  let rounded := row.map npRound
  if (npNonzero1d rounded).length = 0 then List.replicate nCoarse 0
  else
    let codes := (nonzeroIdx rounded).map ind2c
    let codes_coarse := (codes.map prefixBeforeDot).dedup
    let codes_coarse_idx := codes_coarse.map c2ind_coarse
    codes_coarse_idx.foldl (fun acc i => acc.set i 1) (List.replicate nCoarse 0)

/-! ## Metrics-dict assembly in `test` (lines 303-320) and the `train`
batch loop (lines 161-219)

Python dicts are association lists with unique keys, read through
`dictLookup`; `dictSet` is dict assignment (replace in place, else append)
and `dictUpdate` is `dict.update`.  The results of
`evaluation.all_metrics` (a module not part of these sources) enter as
abstract fine/coarse metric dicts. -/

/-- Python `d[k]` as an option: the value at the first entry with key `k`. -/
def dictLookup {α : Type} (d : List (String × α)) (k : String) : Option α :=
  (d.find? fun p => decide (p.1 = k)).map Prod.snd

/-- Python `d[k] = v`: replace the first entry with key `k` in place, or
append a new entry. -/
def dictSet {α : Type} : List (String × α) → String → α → List (String × α)
  | [], k, v => [(k, v)]
  | p :: rest, k, v =>
    if p.1 = k then (k, v) :: rest else p :: dictSet rest k v

/-- Python `d1.update(d2)`: assign every entry of `d2` into `d1`. -/
def dictUpdate {α : Type} (d1 d2 : List (String × α)) : List (String × α) :=
  d2.foldl (fun acc p => dictSet acc p.1 p.2) d1

/-- `np.mean` of a list of ordinary floats (the per-batch losses). -/
def np_mean (l : List ℚ) : ℚ :=
  l.sum / l.length

/-- Lines 102-105: the training metrics recorded for one epoch,
`{'loss': np.mean(losses)}`. -/
def metrics_train (losses : List ℚ) : List (String × ℚ) :=
  [("loss", np_mean losses)]

/-- Lines 303-320 of `test`: take the fine metrics dict, set
`metrics['loss'] = np.mean(losses)`, then `metrics.update(metrics_coarse)`;
the result is returned. -/
def testMetricsDict (metrics_fine metrics_coarse : List (String × ℚ))
    (losses : List ℚ) : List (String × ℚ) :=
  dictUpdate (dictSet metrics_fine "loss" (np_mean losses)) metrics_coarse

/-- Line 304: `k = 5 if len(ind2c) == 50 else [8,15]`, as the list of
precision-at-k cutoffs. -/
def precisionAtK (numFineLabels : ℕ) : List ℕ :=
  if numFineLabels = 50 then [5] else [8, 15]

/-- The batch loop of `train` (lines 186-219): the opaque neural step
`stepFn` consumes the model/optimizer state and a batch and yields the
batch loss (`loss.item()`), which is appended to `losses`; the final state
and the loss list are returned. -/
def train {σ β : Type} (stepFn : σ → β → ℚ × σ) : σ → List β → List ℚ × σ
  | s, [] => ([], s)
  | s, b :: bs =>
    let r := stepFn s b
    let rest := train stepFn r.2 bs
    (r.1 :: rest.1, rest.2)

/-! ## Lemmas and claim theorems -/

theorem nanmax_eq_none_iff (l : List PyFloat) : nanmax l = none ↔ ∀ x ∈ l, x = none := by
  induction l with
  | nil => simp [nanmax]
  | cons x xs ih =>
    cases x with
    | none => simpa [nanmax] using ih
    | some q =>
      rw [nanmax]
      cases hm : nanmax xs <;> simp

theorem nanmax_ge (l : List PyFloat) (m : ℚ) (h : nanmax l = some m) :
    ∀ r : ℚ, some r ∈ l → r ≤ m := by
  induction l generalizing m with
  | nil => simp [nanmax] at h
  | cons x xs ih =>
    cases x with
    | none =>
      rw [nanmax] at h
      intro r hr
      rcases List.mem_cons.1 hr with h0 | h0
      · exact absurd h0 (by simp)
      · exact ih m h r h0
    | some q =>
      rw [nanmax] at h
      cases hm : nanmax xs with
      | none =>
        rw [hm] at h
        have hq : q = m := by simpa using h
        intro r hr
        rcases List.mem_cons.1 hr with h0 | h0
        · have : r = q := by simpa using h0
          simp [this, hq]
        · have hnone := (nanmax_eq_none_iff xs).1 hm _ h0
          simp at hnone
      | some m' =>
        rw [hm] at h
        have hq : max q m' = m := by simpa using h
        intro r hr
        rcases List.mem_cons.1 hr with h0 | h0
        · have : r = q := by simpa using h0
          subst this
          exact hq ▸ le_max_left _ _
        · exact le_trans (ih m' hm r h0) (hq ▸ le_max_right _ _)

theorem getD_mem_of_lt (l : List PyFloat) (j : ℕ) (hj : j < l.length) :
    l.getD j none ∈ l := by
  have : l.getD j none = l[j] := by
    simp [List.getD_eq_getElem?_getD, List.getElem?_eq_getElem hj]
  rw [this]
  exact List.getElem_mem hj

theorem nanargmax_spec (l : List PyFloat) (i : ℕ) (h : nanargmax l = some i) :
    ∃ q : ℚ, nanmax l = some q ∧ i < l.length ∧ l.getD i none = some q ∧
      ∀ j, j < i → ∀ r : ℚ, l.getD j none = some r → r < q := by
  induction l generalizing i with
  | nil => simp [nanargmax] at h
  | cons x xs ih =>
    cases x with
    | none =>
      rw [nanargmax] at h
      cases hargs : nanargmax xs with
      | none => rw [hargs] at h; simp at h
      | some i' =>
        rw [hargs] at h
        have hi : i = i' + 1 := by simpa using h.symm
        subst hi
        obtain ⟨q, hq, hlen, hget, hlt⟩ := ih i' hargs
        refine ⟨q, by simpa [nanmax] using hq, by simpa using Nat.succ_lt_succ hlen,
          by simpa using hget, ?_⟩
        intro j hj r hr
        cases j with
        | zero => simp at hr
        | succ j' => exact hlt j' (by omega) r (by simpa using hr)
    | some q0 =>
      rw [nanargmax] at h
      cases hm : nanmax xs with
      | none =>
        rw [hm] at h
        have h' : (some 0 : Option ℕ) = some i := h
        have hi : i = 0 := by simpa using h'.symm
        subst hi
        exact ⟨q0, by simp [nanmax, hm], by simp, by simp, by omega⟩
      | some m =>
        rw [hm] at h
        have h' : (if m ≤ q0 then (some 0 : Option ℕ)
            else (nanargmax xs).map (· + 1)) = some i := h
        by_cases hle : m ≤ q0
        · rw [if_pos hle] at h'
          have hi : i = 0 := by simpa using h'.symm
          subst hi
          refine ⟨q0, ?_, by simp, by simp, by omega⟩
          simp [nanmax, hm, max_eq_left hle]
        · rw [if_neg hle] at h'
          cases hargs : nanargmax xs with
          | none => rw [hargs] at h'; simp at h'
          | some i' =>
            rw [hargs] at h'
            have hi : i = i' + 1 := by simpa using h'.symm
            subst hi
            obtain ⟨q, hq, hlen, hget, hlt⟩ := ih i' hargs
            have hqm : q = m := by rw [hm] at hq; simpa using hq.symm
            subst hqm
            refine ⟨q, ?_, by simpa using Nat.succ_lt_succ hlen,
              by simpa using hget, ?_⟩
            · simp [nanmax, hm, max_eq_right (le_of_not_le hle)]
            · intro j hj r hr
              cases j with
              | zero =>
                have : r = q0 := by simpa using hr.symm
                subst this
                exact lt_of_not_le hle
              | succ j' => exact hlt j' (by omega) r (by simpa using hr)

theorem nanargmax_eq_none_iff (l : List PyFloat) :
    nanargmax l = none ↔ nanmax l = none := by
  induction l with
  | nil => simp [nanargmax, nanmax]
  | cons x xs ih =>
    cases x with
    | none =>
      rw [nanargmax, nanmax]
      cases hargs : nanargmax xs <;> cases hm : nanmax xs <;>
        simp_all
    | some q =>
      rw [nanargmax, nanmax]
      cases hm : nanmax xs with
      | none => simp
      | some m =>
        by_cases hle : m ≤ q
        · simp [hle]
        · simp only [if_neg hle]
          cases hargs : nanargmax xs <;> simp_all

theorem nanargmax_isFirstMaxIdx (l : List PyFloat) (i : ℕ)
    (h : nanargmax l = some i) : isFirstMaxIdx l i := by
  obtain ⟨q, hq, hlen, hget, hlt⟩ := nanargmax_spec l i h
  refine ⟨q, hlen, hget, ?_, hlt⟩
  intro j hj r hr
  exact nanmax_ge l q hq r (hr ▸ getD_mem_of_lt l j hj)

theorem isFirstMaxIdx_unique (l : List PyFloat) (i i' : ℕ)
    (h : isFirstMaxIdx l i) (h' : isFirstMaxIdx l i') : i = i' := by
  obtain ⟨q, hlen, hget, hub, hstrict⟩ := h
  obtain ⟨q', hlen', hget', hub', hstrict'⟩ := h'
  have h1 : q ≤ q' := hub' i hlen q hget
  have h2 : q' ≤ q := hub i' hlen' q' hget'
  have hqq : q = q' := le_antisymm h1 h2
  rcases Nat.lt_trichotomy i i' with hlt | heq | hgt
  · have := hstrict' i hlt q hget
    exact absurd this (by simp [hqq])
  · exact heq
  · have := hstrict i' hgt q' hget'
    exact absurd this (by simp [hqq])

/-- C1: for every metrics history for an early-stopping criterion other than
"loss-dev" containing at least one non-NaN value, `early_stop` returns True
exactly when the index of the largest non-NaN value of the history (first
occurrence, the index `np.nanargmax` denotes) is strictly less than
`len(h) - patience`: training stops exactly when the criterion's best value
was reached more than `patience` epochs before the most recent epoch. -/
theorem C1_early_stop_maximized_policy (hist : String → List PyFloat)
    (crit : String) (p : ℤ) (i : ℕ)
    (hcrit : crit ≠ "loss-dev") (hmax : isFirstMaxIdx (hist crit) i) :
    early_stop hist crit p =
      some (decide ((i : ℤ) < ((hist crit).length : ℤ) - p)) := by
  obtain ⟨q, hlen, hget, hub, hstrict⟩ := hmax
  have hmax' : isFirstMaxIdx (hist crit) i := ⟨q, hlen, hget, hub, hstrict⟩
  have hmem : (some q : PyFloat) ∈ hist crit := hget ▸ getD_mem_of_lt _ _ hlen
  have hnotall : ¬ ((hist crit).all fun x => x.isNone) = true := by
    intro hall
    have := List.all_eq_true.1 hall _ hmem
    simp at this
  obtain ⟨i0, hargs⟩ : ∃ i0, nanargmax (hist crit) = some i0 := by
    cases hargs : nanargmax (hist crit) with
    | none =>
      exfalso
      have h1 := (nanargmax_eq_none_iff _).1 hargs
      have h2 := (nanmax_eq_none_iff _).1 h1 _ hmem
      simp at h2
    | some i0 => exact ⟨i0, rfl⟩
  have hii : i0 = i :=
    isFirstMaxIdx_unique _ _ _ (nanargmax_isFirstMaxIdx _ _ hargs) hmax'
  subst hii
  simp [early_stop, hnotall, hcrit, hargs]

/-- Witness for C1 at history `[1, 2]`, criterion `f1_micro`, patience 3:
the best value is at index 1, `1 < 2 - 3` is false, so no early stop. -/
theorem C1_witness :
    early_stop (fun _ => [some 1, some 2]) "f1_micro" 3 = some false := by
  have hmax : isFirstMaxIdx [some 1, some 2] 1 := by
    refine ⟨2, by decide, by decide, ?_, ?_⟩
    · intro j hj r hr
      rcases j with _ | (_ | j)
      · have h1 : r = 1 := by simpa using hr.symm
        rw [h1]; norm_num
      · have h1 : r = 2 := by simpa using hr.symm
        rw [h1]
      · exfalso
        simp only [List.length_cons, List.length_nil] at hj
        omega
    · intro j hj r hr
      rcases j with _ | j
      · have h1 : r = 1 := by simpa using hr.symm
        rw [h1]; norm_num
      · omega
  have h := C1_early_stop_maximized_policy (fun _ => [some 1, some 2])
    "f1_micro" 3 1 (by decide) hmax
  rw [h]
  decide

/-- C2 (code evaluation at the failing input): with dev-loss history
`[3, 2, 1]` — the loss reaching a new minimum at every epoch — and
patience 2, the code's `early_stop` returns True (`nanargmin = 2 > 3 - 2`),
stopping training right after an improvement, while the claimed policy
mirroring the maximized case (`nanargmin < len - patience`, i.e. `2 < 1`)
would return False.  The comparison direction for "loss-dev" contradicts
the code's own loop comment and its "hasn't improved in %d epochs" message. -/
theorem C2_loss_dev_code_eval :
    early_stop (fun _ => [some 3, some 2, some 1]) "loss-dev" 2 = some true ∧
    nanargmin [some 3, some 2, some 1] = some 2 ∧
    ¬ ((2 : ℤ) < (([some 3, some 2, some 1] : List PyFloat).length : ℤ) - 2) := by
  decide

theorem early_stop_of_all_none (hist : String → List PyFloat) (crit : String)
    (p : ℤ) (hall : ∀ x ∈ hist crit, x = none) :
    early_stop hist crit p = some false := by
  have h : ((hist crit).all fun x => x.isNone) = true :=
    List.all_eq_true.2 (fun x hx => by simp [hall x hx])
  simp [early_stop, h]

/-- C3: for every criterion and patience, if every value recorded so far in
the criterion's history is NaN, `early_stop` returns False (training
continues); the result is `some false`, never `none`, i.e. the
`nanargmin`/`nanargmax` calls that would raise on an all-NaN array are not
reached. -/
theorem C3_early_stop_all_nan (hist : String → List PyFloat) (crit : String)
    (p : ℤ) (hall : ∀ x ∈ hist crit, x = none) :
    early_stop hist crit p = some false :=
  early_stop_of_all_none hist crit p hall

/-- Witness for C3 at the all-NaN history `[NaN, NaN]`. -/
theorem C3_witness :
    early_stop (fun _ => [none, none]) "f1_micro" 3 = some false :=
  C3_early_stop_all_nan (fun _ => [none, none]) "f1_micro" 3 (by decide)

theorem nanmin_eq_none_iff (l : List PyFloat) : nanmin l = none ↔ ∀ x ∈ l, x = none := by
  induction l with
  | nil => simp [nanmin]
  | cons x xs ih =>
    cases x with
    | none => simpa [nanmin] using ih
    | some q =>
      rw [nanmin]
      cases hm : nanmin xs <;> simp

theorem nanargmin_eq_none_iff (l : List PyFloat) :
    nanargmin l = none ↔ nanmin l = none := by
  induction l with
  | nil => simp [nanargmin, nanmin]
  | cons x xs ih =>
    cases x with
    | none =>
      rw [nanargmin, nanmin]
      cases hargs : nanargmin xs <;> cases hm : nanmin xs <;> simp_all
    | some q =>
      rw [nanargmin, nanmin]
      cases hm : nanmin xs with
      | none => simp
      | some m =>
        by_cases hle : q ≤ m
        · simp [hle]
        · simp only [if_neg hle]
          cases hargs : nanargmin xs <;> simp_all

/-- `early_stop` never raises: its guard keeps the `nanargmin`/`nanargmax`
calls away from all-NaN histories, so the modelled numpy `ValueError`
(`none`) is unreachable for every input. -/
theorem early_stop_isSome (hist : String → List PyFloat) (crit : String)
    (p : ℤ) : (early_stop hist crit p).isSome = true := by
  by_cases hall : ((hist crit).all fun x => x.isNone) = true
  · simp [early_stop, hall]
  · by_cases hc : crit = "loss-dev"
    · subst hc
      cases hmin : nanargmin (hist "loss-dev") with
      | none =>
        exfalso
        apply hall
        refine List.all_eq_true.2 fun x hx => ?_
        have h1 := (nanargmin_eq_none_iff _).1 hmin
        have h2 := (nanmin_eq_none_iff _).1 h1 x hx
        simp [h2]
      | some i => simp [early_stop, hall, hmin]
    · cases hmaxa : nanargmax (hist crit) with
      | none =>
        exfalso
        apply hall
        refine List.all_eq_true.2 fun x hx => ?_
        have h1 := (nanargmax_eq_none_iff _).1 hmaxa
        have h2 := (nanmax_eq_none_iff _).1 h1 x hx
        simp [h2]
      | some i => simp [early_stop, hall, hc, hmaxa]

theorem histAppend_apply (m : List (String × PyFloat))
    (hist : String → List PyFloat) (s : String) :
    histAppend hist m s =
      hist s ++ (m.filter fun p => decide (p.1 = s)).map Prod.snd := by
  induction m generalizing hist with
  | nil => simp [histAppend]
  | cons p rest ih =>
    have h0 : histAppend hist (p :: rest) =
        histAppend (fun s0 => if s0 = p.1 then hist s0 ++ [p.2] else hist s0) rest :=
      rfl
    rw [h0, ih]
    by_cases hs : p.1 = s
    · simp [hs, List.filter_cons]
    · simp [List.filter_cons, hs, Ne.symm hs]

theorem epochLoop_succ (crit : Option String) (pat : ℤ)
    (dev : ℕ → List (String × PyFloat)) (rem e epv : ℕ)
    (hist : String → List PyFloat) (tr : List Event) :
    epochLoop crit pat dev (rem + 1) e epv hist tr =
      if earlyStopCheck crit (histAppend hist (dev e)) pat then
        (e, histAppend hist (dev e), tr ++ [Event.trainEpoch e, Event.devEval e])
      else
        epochLoop crit pat dev rem (e + 1) e (histAppend hist (dev e))
          (tr ++ [Event.trainEpoch e, Event.devEval e]) :=
  rfl

/-- Full characterization of the epoch loop: starting at epoch `e0` with
the history of the first `e0` epochs and fuel `rem`, some `k ≤ rem` epochs
run, each adding a train-pass/dev-eval pair to the trace and one epoch of
metrics to the history; intermediate early-stop checks are negative, and
the run either exhausts the fuel or ends on a positive check. -/
theorem epochLoop_spec (crit : Option String) (pat : ℤ)
    (dev : ℕ → List (String × PyFloat)) :
    ∀ (rem e0 epv : ℕ) (tr : List Event),
      ∃ k, k ≤ rem ∧
        epochLoop crit pat dev rem e0 epv (histAfter dev e0) tr =
          ((if k = 0 then epv else e0 + (k - 1)), histAfter dev (e0 + k),
            tr ++ epochsTraceFrom e0 k) ∧
        (∀ j, j + 1 < k →
          earlyStopCheck crit (histAfter dev (e0 + j + 1)) pat = false) ∧
        (k = rem ∨
          (0 < k ∧ earlyStopCheck crit (histAfter dev (e0 + k)) pat = true)) := by
  intro rem
  induction rem with
  | zero =>
    intro e0 epv tr
    refine ⟨0, le_refl 0, by simp [epochLoop, epochsTraceFrom], ?_, Or.inl rfl⟩
    intro j hj
    exact absurd hj (by omega)
  | succ rem ih =>
    intro e0 epv tr
    have hh : histAppend (histAfter dev e0) (dev e0) = histAfter dev (e0 + 1) := rfl
    rw [epochLoop_succ, hh]
    by_cases hstop : earlyStopCheck crit (histAfter dev (e0 + 1)) pat = true
    · rw [if_pos hstop]
      refine ⟨1, by omega, ?_, ?_, Or.inr ⟨by omega, hstop⟩⟩
      · simp [epochsTraceFrom]
      · intro j hj
        exact absurd hj (by omega)
    · rw [if_neg hstop]
      obtain ⟨k', hk'le, heq, hchecks, hterm⟩ :=
        ih (e0 + 1) e0 (tr ++ [Event.trainEpoch e0, Event.devEval e0])
      refine ⟨k' + 1, by omega, ?_, ?_, ?_⟩
      · rw [heq]
        have h1 : (if k' = 0 then e0 else e0 + 1 + (k' - 1)) = e0 + (k' + 1 - 1) := by
          by_cases h0 : k' = 0
          · simp [h0]
          · rw [if_neg h0]
            omega
        have h2 : e0 + 1 + k' = e0 + (k' + 1) := by omega
        have h3 : (tr ++ [Event.trainEpoch e0, Event.devEval e0]) ++
            epochsTraceFrom (e0 + 1) k' = tr ++ epochsTraceFrom e0 (k' + 1) := by
          rw [List.append_assoc]
          congr 1
        rw [h1, h2, h3]
        simp
      · intro j hj
        cases j with
        | zero =>
          simpa using eq_false_of_ne_true hstop
        | succ j' =>
          have hidx : e0 + (j' + 1) + 1 = e0 + 1 + j' + 1 := by omega
          rw [hidx]
          exact hchecks j' (by omega)
      · rcases hterm with h | ⟨hpos, htrue⟩
        · exact Or.inl (by omega)
        · refine Or.inr ⟨by omega, ?_⟩
          have hidx : e0 + (k' + 1) = e0 + 1 + k' := by omega
          rw [hidx]
          exact htrue

/-- C5: for every run of `train_epochs` without `test_model`, some `k ≤
n_epochs` epochs run; the trace is exactly the model-directory creation,
then for each epoch a full training pass immediately followed by a dev-set
evaluation, then a single test-set evaluation at the very end; every
early-stop check before the last executed epoch is negative, and either
all `n_epochs` epochs ran or the criterion is set and the check right
after the last epoch's dev evaluation is positive (the loop breaks there). -/
theorem C5_train_epochs_loop_shape (n : ℕ) (crit : Option String) (pat : ℤ)
    (dev : ℕ → List (String × PyFloat)) :
    ∃ k, k ≤ n ∧
      (train_epochs none n crit pat dev).2 =
        Event.mkModelDir :: (epochsTraceFrom 0 k ++ [Event.testEval]) ∧
      (∀ j, j + 1 < k →
        earlyStopCheck crit (histAfter dev (j + 1)) pat = false) ∧
      (k = n ∨ (k < n ∧ crit.isSome = true ∧
        earlyStopCheck crit (histAfter dev k) pat = true)) := by
  obtain ⟨k, hk, heq, hchecks, hterm⟩ :=
    epochLoop_spec crit pat dev n 0 0 [Event.mkModelDir]
  refine ⟨k, hk, ?_, ?_, ?_⟩
  · show (epochLoop crit pat dev n 0 0 (histAfter dev 0)
        [Event.mkModelDir]).2.2 ++ [Event.testEval] = _
    rw [heq]
    simp
  · intro j hj
    simpa using hchecks j hj
  · by_cases hkn : k = n
    · exact Or.inl hkn
    · rcases hterm with h | ⟨hpos, htrue⟩
      · exact absurd h hkn
      · refine Or.inr ⟨by omega, ?_, by simpa using htrue⟩
        cases crit with
        | none => simp [earlyStopCheck] at htrue
        | some c => rfl

/-- C9 counterexample: the claim says that whenever `args.test_model` is
not None, `init` builds no optimizer; but for the non-None falsy value `""`
(`--test-model ""`), `not args.test_model` is true in `init` and an
optimizer is built (the model not being 'dummy'), even though
`test_only = args.test_model is not None` holds and no training runs. -/
theorem C9_counterexample : buildsOptimizer (some "") "conv_attn" = true := by
  decide

/-- C9 (amended): when `args.test_model` is not None, `train_epochs` runs
zero training epochs, creates no model directory, performs only the single
test-set evaluation, and still returns `epoch + 1 = 1`; `init` builds no
optimizer provided the test-model string is non-empty (for the empty
string, Python truthiness makes `init` build one anyway). -/
theorem C9_test_only (s model : String) (n : ℕ) (crit : Option String)
    (pat : ℤ) (dev : ℕ → List (String × PyFloat)) (hs : s ≠ "") :
    buildsOptimizer (some s) model = false ∧
    train_epochs (some s) n crit pat dev = (1, [Event.testEval]) := by
  constructor
  · simp [buildsOptimizer, pyTruthy, hs]
  · rfl

/-- Witness for C9 at a non-empty saved-model path. -/
theorem C9_witness :
    buildsOptimizer (some "model.pt") "conv_attn" = false ∧
    train_epochs (some "model.pt") 5 none 3 (fun _ => []) =
      (1, [Event.testEval]) :=
  C9_test_only "model.pt" "conv_attn" 5 none 3 (fun _ => []) (by decide)

theorem histAfter_length (dev : ℕ → List (String × PyFloat)) (m : String)
    (h1 : ∀ e, ((dev e).countP fun p => decide (p.1 = m)) = 1) :
    ∀ n, (histAfter dev n m).length = n := by
  intro n
  induction n with
  | zero => rfl
  | succ n ih =>
    show (histAppend (histAfter dev n) (dev n) m).length = n + 1
    rw [histAppend_apply, List.length_append, List.length_map,
      ← List.countP_eq_length_filter, h1 n, ih]

theorem histAfter_nil (dev : ℕ → List (String × PyFloat)) (m : String)
    (h2 : ∀ e, ∀ p ∈ dev e, p.1 ≠ m) :
    ∀ n, histAfter dev n m = [] := by
  intro n
  induction n with
  | zero => rfl
  | succ n ih =>
    show histAppend (histAfter dev n) (dev n) m = []
    rw [histAppend_apply, ih]
    have hfil : ((dev n).filter fun p => decide (p.1 = m)) = [] :=
      List.filter_eq_nil_iff.2 (fun p hp => by simpa using h2 n p hp)
    simp [hfil]

/-- C10: if the per-epoch dev metrics contain a metric `m1` exactly once
each epoch, its history after epoch `e` (0-based) has length `e + 1` — the
history `early_stop` sees after epoch `e`; and if the criterion `m2` is a
metric `test()` never returns, its defaultdict history stays empty forever,
`early_stop` on it always returns False, and training never stops early:
all `n_epochs` epochs run. -/
theorem C10_dev_history_invariant (dev : ℕ → List (String × PyFloat))
    (m1 m2 : String) (pat : ℤ) (n e : ℕ)
    (h1 : ∀ a, ((dev a).countP fun p => decide (p.1 = m1)) = 1)
    (h2 : ∀ a, ∀ p ∈ dev a, p.1 ≠ m2) :
    (histAfter dev (e + 1) m1).length = e + 1 ∧
    histAfter dev e m2 = [] ∧
    early_stop (histAfter dev e) m2 pat = some false ∧
    (train_epochs none n (some m2) pat dev).2 =
      Event.mkModelDir :: (epochsTraceFrom 0 n ++ [Event.testEval]) := by
  have hnil := histAfter_nil dev m2 h2
  have hfalse : ∀ a, early_stop (histAfter dev a) m2 pat = some false := by
    intro a
    exact early_stop_of_all_none _ _ _ (by simp [hnil a])
  refine ⟨histAfter_length dev m1 h1 (e + 1), hnil e, hfalse e, ?_⟩
  obtain ⟨k, hk, heq, hchecks, hterm⟩ :=
    epochLoop_spec (some m2) pat dev n 0 0 [Event.mkModelDir]
  have hkn : k = n := by
    rcases hterm with h | ⟨hpos, htrue⟩
    · exact h
    · exfalso
      have hfa : earlyStopCheck (some m2) (histAfter dev (0 + k)) pat = false := by
        show (early_stop (histAfter dev (0 + k)) m2 pat).getD false = false
        rw [hfalse (0 + k)]
        rfl
      rw [hfa] at htrue
      exact Bool.false_ne_true htrue
  subst hkn
  show (epochLoop (some m2) pat dev k 0 0 (histAfter dev 0)
      [Event.mkModelDir]).2.2 ++ [Event.testEval] = _
  rw [heq]
  simp

/-- Witness for C10 with dev metrics `{f1_micro: 1.0}` every epoch, a
criterion `prec_at_8` that is never returned, patience 3, 2 epochs. -/
theorem C10_witness :
    (histAfter (fun _ => [("f1_micro", (some 1 : PyFloat))]) (1 + 1)
      "f1_micro").length = 1 + 1 ∧
    histAfter (fun _ => [("f1_micro", (some 1 : PyFloat))]) 1 "prec_at_8" = [] ∧
    early_stop (histAfter (fun _ => [("f1_micro", (some 1 : PyFloat))]) 1)
      "prec_at_8" 3 = some false ∧
    (train_epochs none 2 (some "prec_at_8") 3
      (fun _ => [("f1_micro", (some 1 : PyFloat))])).2 =
      Event.mkModelDir :: (epochsTraceFrom 0 2 ++ [Event.testEval]) :=
  C10_dev_history_invariant (fun _ => [("f1_micro", (some 1 : PyFloat))])
    "f1_micro" "prec_at_8" 3 2 1
    (fun a => by
      show (([("f1_micro", (some 1 : PyFloat))]).countP
        fun p => decide (p.1 = "f1_micro")) = 1
      decide)
    (fun a => by
      show ∀ p ∈ [("f1_micro", (some 1 : PyFloat))], p.1 ≠ "prec_at_8"
      decide)

theorem mem_nonzeroIdx (l : List ℤ) (i : ℕ) :
    i ∈ nonzeroIdx l ↔ i < l.length ∧ l.getD i 0 ≠ 0 := by
  simp [nonzeroIdx, List.mem_filter, List.mem_range]

theorem getD_mem_of_lt_q (l : List ℚ) (j : ℕ) (hj : j < l.length) :
    l.getD j 0 ∈ l := by
  have h : l.getD j 0 = l[j] := by
    simp [List.getD_eq_getElem?_getD, List.getElem?_eq_getElem hj]
  rw [h]
  exact List.getElem_mem hj

theorem getD_map_npRound (row : List ℚ) (i : ℕ) (hi : i < row.length) :
    (row.map npRound).getD i 0 = npRound (row.getD i 0) := by
  rw [List.getD_eq_getElem?_getD, List.getElem?_map,
    List.getD_eq_getElem?_getD, List.getElem?_eq_getElem hi]
  rfl

theorem foldl_set_getD (idxs : List ℕ) :
    ∀ (l : List ℚ) (j : ℕ), j < l.length →
      (idxs.foldl (fun acc i => acc.set i 1) l).getD j 0 =
        if j ∈ idxs then 1 else l.getD j 0 := by
  induction idxs with
  | nil =>
    intro l j _
    simp
  | cons x xs ih =>
    intro l j hj
    rw [List.foldl_cons, ih (l.set x 1) j (by simpa using hj)]
    by_cases hmem : j ∈ xs
    · rw [if_pos hmem, if_pos (List.mem_cons_of_mem x hmem)]
    · rw [if_neg hmem]
      by_cases hxj : j = x
      · subst hxj
        rw [if_pos (List.mem_cons_self j xs), List.getD_eq_getElem?_getD,
          List.getElem?_set_self hj, Option.getD_some]
      · rw [if_neg (by simp [List.mem_cons, hxj, hmem]),
          List.getD_eq_getElem?_getD, List.getElem?_set_ne (Ne.symm hxj),
          ← List.getD_eq_getElem?_getD]

/-- C4: in `test()` with a non-hierarchical model, for every prediction row
the derived coarse row holds 1 exactly at the indices `c2ind_coarse[s]` of
the distinct before-the-dot prefixes `s` of the fine codes whose rounded
raw score is nonzero, and 0 at every other index. -/
theorem C4_coarse_aggregation (ind2c : ℕ → List Char)
    (c2ind_coarse : List Char → ℕ) (nCoarse : ℕ) (row : List ℚ) (j : ℕ)
    (_hrange : ∀ i, i < row.length →
      c2ind_coarse (prefixBeforeDot (ind2c i)) < nCoarse)
    (hj : j < nCoarse) :
    (coarseRow ind2c c2ind_coarse nCoarse row).getD j 0 =
      if ∃ i ∈ Finset.range row.length,
          npRound (row.getD i 0) ≠ 0 ∧
          c2ind_coarse (prefixBeforeDot (ind2c i)) = j
      then 1 else 0 := by
  simp only [coarseRow]
  rw [if_neg (by simp [npNonzero1d])]
  rw [foldl_set_getD _ _ j (by simpa using hj)]
  have hrep : (List.replicate nCoarse (0 : ℚ)).getD j 0 = 0 := by
    rw [List.getD_eq_getElem?_getD, List.getElem?_replicate]
    split <;> rfl
  rw [hrep]
  have hiff : j ∈ ((((nonzeroIdx (row.map npRound)).map ind2c).map
      prefixBeforeDot).dedup.map c2ind_coarse) ↔
      ∃ i ∈ Finset.range row.length,
        npRound (row.getD i 0) ≠ 0 ∧
        c2ind_coarse (prefixBeforeDot (ind2c i)) = j := by
    simp only [List.mem_map, List.mem_dedup, Finset.mem_range,
      mem_nonzeroIdx, List.length_map]
    constructor
    · rintro ⟨a, ⟨c, ⟨i, ⟨hi, hnz⟩, rfl⟩, rfl⟩, rfl⟩
      exact ⟨i, hi, by rwa [getD_map_npRound row i hi] at hnz, rfl⟩
    · rintro ⟨i, hi, hnz, hcj⟩
      exact ⟨prefixBeforeDot (ind2c i),
        ⟨ind2c i, ⟨i, ⟨hi, by rwa [getD_map_npRound row i hi]⟩, rfl⟩, rfl⟩, hcj⟩
  exact if_congr hiff rfl rfl

/-- Witness for C4: fine codes 401.9 (score 0.7, rounds to 1) and 428
(score 0.2, rounds to 0); the coarse row is 1 at index 0 (= prefix 401)
and the right-hand condition holds there. -/
theorem C4_witness :
    (coarseRow
        (fun i => if i = 0 then ['4', '0', '1', '.', '9'] else ['4', '2', '8'])
        (fun s => if s = ['4', '0', '1'] then 0 else 1) 2
        [mkRat 7 10, mkRat 2 10]).getD 0 0 =
      if ∃ i ∈ Finset.range ([mkRat 7 10, mkRat 2 10] : List ℚ).length,
          npRound (([mkRat 7 10, mkRat 2 10] : List ℚ).getD i 0) ≠ 0 ∧
          (fun s => if s = ['4', '0', '1'] then 0 else 1)
            (prefixBeforeDot
              ((fun i => if i = 0 then ['4', '0', '1', '.', '9']
                else ['4', '2', '8']) i)) = 0
      then 1 else 0 :=
  C4_coarse_aggregation
    (fun i => if i = 0 then ['4', '0', '1', '.', '9'] else ['4', '2', '8'])
    (fun s => if s = ['4', '0', '1'] then 0 else 1) 2
    [mkRat 7 10, mkRat 2 10] 0 (by decide) (by decide)

/-- C8: the `continue` guard compares the length of the 1-tuple returned by
`np.nonzero` with 0, so it is never taken (the length is always 1);
nevertheless a row in which every rounded score is zero yields an all-zero
coarse row, because the nonzero-index list is empty. -/
theorem C8_nonzero_guard (ind2c : ℕ → List Char)
    (c2ind_coarse : List Char → ℕ) (nCoarse : ℕ) (row : List ℚ) :
    (npNonzero1d (row.map npRound)).length = 1 ∧
    ((∀ q ∈ row, npRound q = 0) →
      coarseRow ind2c c2ind_coarse nCoarse row = List.replicate nCoarse 0) := by
  refine ⟨rfl, ?_⟩
  intro hz
  have hnz : nonzeroIdx (row.map npRound) = [] := by
    apply List.filter_eq_nil_iff.2
    intro i hi
    have hlen : i < row.length := by simpa using List.mem_range.1 hi
    have h0 : (row.map npRound).getD i 0 = 0 := by
      rw [getD_map_npRound row i hlen]
      exact hz _ (getD_mem_of_lt_q row i hlen)
    rw [h0]
    decide
  simp only [coarseRow]
  rw [if_neg (by simp [npNonzero1d])]
  simp [hnz]

/-- Witness for C8 at the row `[0.0]`: the guard length is 1 and the coarse
row is all zeros. -/
theorem C8_witness :
    (npNonzero1d (([(0 : ℚ)]).map npRound)).length = 1 ∧
    coarseRow (fun _ => ['0']) (fun _ => 0) 1 [(0 : ℚ)] =
      List.replicate 1 0 := by
  obtain ⟨h1, h2⟩ := C8_nonzero_guard (fun _ => ['0']) (fun _ => 0) 1 [(0 : ℚ)]
  exact ⟨h1, h2 (by decide)⟩

theorem dictLookup_dictSet_self {α : Type} (d : List (String × α))
    (k : String) (v : α) : dictLookup (dictSet d k v) k = some v := by
  induction d with
  | nil => simp [dictSet, dictLookup]
  | cons p rest ih =>
    rw [dictSet]
    by_cases hp : p.1 = k
    · rw [if_pos hp]
      simp [dictLookup]
    · rw [if_neg hp]
      simpa [dictLookup, List.find?_cons_of_neg, hp] using ih

theorem dictLookup_dictSet_ne {α : Type} (d : List (String × α))
    (k k' : String) (v : α) (h : k' ≠ k) :
    dictLookup (dictSet d k v) k' = dictLookup d k' := by
  induction d with
  | nil => simp [dictSet, dictLookup, Ne.symm h]
  | cons p rest ih =>
    rw [dictSet]
    by_cases hp : p.1 = k
    · rw [if_pos hp]
      have h1 : ¬ (k = k') := fun he => h he.symm
      have h2 : ¬ (p.1 = k') := by rw [hp]; exact h1
      simp [dictLookup, List.find?_cons, h1, h2]
    · rw [if_neg hp]
      by_cases hp' : p.1 = k'
      · simp [dictLookup, List.find?_cons, hp']
      · simpa [dictLookup, List.find?_cons, hp'] using ih

theorem dictLookup_of_mem {α : Type} (d : List (String × α)) (k : String)
    (v : α) (hnd : (d.map Prod.fst).Nodup) (hmem : (k, v) ∈ d) :
    dictLookup d k = some v := by
  induction d with
  | nil => simp at hmem
  | cons p rest ih =>
    rcases List.mem_cons.1 hmem with heq | hmem'
    · cases heq.symm
      simp [dictLookup, List.find?_cons]
    · have hp : ¬ (p.1 = k) := by
        intro he
        have hk : p.1 ∈ rest.map Prod.fst :=
          List.mem_map.2 ⟨(k, v), hmem', by simp [he]⟩
        exact (List.nodup_cons.1 (by simpa using hnd)).1 hk
      have hnd' : (rest.map Prod.fst).Nodup :=
        (List.nodup_cons.1 (by simpa using hnd)).2
      simpa [dictLookup, List.find?_cons, hp] using ih hnd' hmem'

theorem dictLookup_update_not_mem {α : Type} (d2 : List (String × α)) :
    ∀ (d1 : List (String × α)) (k : String), (∀ p ∈ d2, p.1 ≠ k) →
      dictLookup (dictUpdate d1 d2) k = dictLookup d1 k := by
  induction d2 with
  | nil =>
    intro d1 k _
    rfl
  | cons p rest ih =>
    intro d1 k h
    have hstep : dictUpdate d1 (p :: rest) = dictUpdate (dictSet d1 p.1 p.2) rest :=
      rfl
    rw [hstep, ih (dictSet d1 p.1 p.2) k
      (fun q hq => h q (List.mem_cons_of_mem p hq))]
    exact dictLookup_dictSet_ne d1 p.1 k p.2
      (fun he => h p (List.mem_cons_self p rest) he.symm)

theorem dictLookup_update_mem {α : Type} (d2 : List (String × α)) :
    ∀ (d1 : List (String × α)) (k : String) (v : α),
      (d2.map Prod.fst).Nodup → (k, v) ∈ d2 →
      dictLookup (dictUpdate d1 d2) k = some v := by
  induction d2 with
  | nil =>
    intro d1 k v _ hmem
    simp at hmem
  | cons p rest ih =>
    intro d1 k v hnd hmem
    have hstep : dictUpdate d1 (p :: rest) = dictUpdate (dictSet d1 p.1 p.2) rest :=
      rfl
    rw [hstep]
    rcases List.mem_cons.1 hmem with heq | hmem'
    · cases heq.symm
      have hk : ∀ q ∈ rest, q.1 ≠ k := by
        intro q hq he
        have hmm : k ∈ rest.map Prod.fst := List.mem_map.2 ⟨q, hq, he⟩
        exact (List.nodup_cons.1 (by simpa using hnd)).1 hmm
      rw [dictLookup_update_not_mem rest (dictSet d1 k v) k hk]
      exact dictLookup_dictSet_self d1 k v
    · exact ih (dictSet d1 p.1 p.2) k v
        (List.nodup_cons.1 (by simpa using hnd)).2 hmem'

/-- C6: the metrics dict returned by `test()` holds the fine-level metrics,
all the coarse-level metrics (merged via `dict.update`, so a coarse entry
wins on a key clash), and a `'loss'` entry equal to the arithmetic mean of
the per-batch losses (the coarse metrics carry no `'loss'` key); the
precision-at-k parameter is 5 when the fine label space has exactly 50
labels and `[8, 15]` otherwise. -/
theorem C6_test_metrics (metrics_fine metrics_coarse : List (String × ℚ))
    (losses : List ℚ) (nFine : ℕ) (pc pf : String × ℚ)
    (_hne : losses ≠ [])
    (hnl : ∀ p ∈ metrics_coarse, p.1 ≠ "loss")
    (hndC : (metrics_coarse.map Prod.fst).Nodup)
    (hndF : (metrics_fine.map Prod.fst).Nodup)
    (hn50 : nFine ≠ 50)
    (hpc : pc ∈ metrics_coarse)
    (hpf : pf ∈ metrics_fine)
    (hpfC : pf.1 ∉ metrics_coarse.map Prod.fst)
    (hpfl : pf.1 ≠ "loss") :
    dictLookup (testMetricsDict metrics_fine metrics_coarse losses) "loss" =
      some (np_mean losses) ∧
    dictLookup (testMetricsDict metrics_fine metrics_coarse losses) pc.1 =
      some pc.2 ∧
    dictLookup (testMetricsDict metrics_fine metrics_coarse losses) pf.1 =
      some pf.2 ∧
    precisionAtK 50 = [5] ∧ precisionAtK nFine = [8, 15] := by
  refine ⟨?_, ?_, ?_, rfl, by simp [precisionAtK, hn50]⟩
  · rw [testMetricsDict, dictLookup_update_not_mem _ _ _ hnl]
    exact dictLookup_dictSet_self _ _ _
  · exact dictLookup_update_mem _ _ _ _ hndC hpc
  · rw [testMetricsDict,
      dictLookup_update_not_mem _ _ _
        (fun q hq he => hpfC (List.mem_map.2 ⟨q, hq, he⟩)),
      dictLookup_dictSet_ne _ _ _ _ hpfl]
    exact dictLookup_of_mem _ _ _ hndF hpf

/-- Witness for C6 with one fine metric, one coarse metric, losses `[4]`
and a 15-label fine space. -/
theorem C6_witness :
    dictLookup (testMetricsDict [("f1_micro_fine", (1 : ℚ))]
      [("f1_micro_coarse", (2 : ℚ))] [4]) "loss" = some (np_mean [4]) ∧
    dictLookup (testMetricsDict [("f1_micro_fine", (1 : ℚ))]
      [("f1_micro_coarse", (2 : ℚ))] [4]) "f1_micro_coarse" = some 2 ∧
    dictLookup (testMetricsDict [("f1_micro_fine", (1 : ℚ))]
      [("f1_micro_coarse", (2 : ℚ))] [4]) "f1_micro_fine" = some 1 ∧
    precisionAtK 50 = [5] ∧ precisionAtK 15 = [8, 15] :=
  C6_test_metrics [("f1_micro_fine", (1 : ℚ))] [("f1_micro_coarse", (2 : ℚ))]
    [4] 15 ("f1_micro_coarse", (2 : ℚ)) ("f1_micro_fine", (1 : ℚ))
    (by decide) (by decide) (by decide) (by decide) (by decide) (by decide)
    (by decide) (by decide) (by decide)

/-- C7: for every epoch, `train()` appends exactly one loss per batch of
the training loader and returns that list, and the `'loss'` value recorded
in `metrics_train` (and appended to `metrics_hist_train`) is the arithmetic
mean of the returned per-batch losses. -/
theorem C7_train_batch_losses {σ β : Type} (stepFn : σ → β → ℚ × σ) (s0 : σ)
    (batches : List β) :
    (train stepFn s0 batches).1.length = batches.length ∧
    dictLookup (metrics_train (train stepFn s0 batches).1) "loss" =
      some (np_mean (train stepFn s0 batches).1) := by
  constructor
  · induction batches generalizing s0 with
    | nil => rfl
    | cons b bs ih =>
      simp only [train, List.length_cons]
      rw [ih]
  · simp [metrics_train, dictLookup]

example : nanargmax [none, some 3, some 7, some 7, none] = some 2 := by decide

example : nanargmin [some 3, some 2, some 1] = some 2 := by decide

example : early_stop (fun _ => [some 1, some 5, some 2]) "f1_micro" 3 = some false := by
  decide

example : early_stop (fun _ => [some 5, some 1, some 2]) "f1_micro" 2 = some true := by
  decide
